import Mathlib

/-!
# Verification of the `ord` wallet reconciliation layer

Shallow embedding of `src/wallet.rs`: the version guard (`check_version`),
descriptor shape validation (`Wallet::bitcoin_client`), the index sync gate
(`Wallet::ord_client`), UTXO reconciliation (`Wallet::get_unspent_outputs`),
sat-range reads (`Wallet::get_output_sat_ranges`), sat resolution
(`Wallet::find_sat_in_outputs`) and descriptor initialization
(`Wallet::initialize` / `Wallet::derive_and_import_descriptor`).

Machine integers (`u64`, `u32`, `usize`) are modelled as `Nat`; in every place
where the source subtracts, a guard in the source ensures no underflow, so
truncated `Nat` subtraction agrees with `u64` subtraction there.  Transport
failures (HTTP send errors, JSON parse errors, RPC connection errors) are
outside the model: the environment `Env` provides the decoded responses that
the node and the indexer return.  Semantic failures (version too low, wallet
shape mismatch, sync exhaustion panic, un-indexed output, missing raw
transaction, spent-per-index output, sat not found) are modelled as values of
`WErr`.
-/

deriving instance DecidableEq for Except

namespace OrdWallet

/-- `bitcoin::OutPoint`: a transaction id and an output index.  The txid (a
32-byte hash ordered bytewise in Rust) is modelled as a `Nat`; the derived
`Ord` on `OutPoint` is lexicographic on `(txid, vout)` in both. -/
structure OutPoint where
  txid : Nat
  vout : Nat
deriving DecidableEq, Repr

/-- The strict lexicographic order on `OutPoint` used by `BTreeMap`/`BTreeSet`. -/
def OutPoint.lt (a b : OutPoint) : Prop :=
  a.txid < b.txid ∨ (a.txid = b.txid ∧ a.vout < b.vout)

instance (a b : OutPoint) : Decidable (OutPoint.lt a b) :=
  inferInstanceAs (Decidable (_ ∨ _))

theorem OutPoint.lt_irrefl (a : OutPoint) : ¬ OutPoint.lt a a := by
  simp [OutPoint.lt]

theorem OutPoint.lt_trans {a b c : OutPoint} :
    OutPoint.lt a b → OutPoint.lt b c → OutPoint.lt a c := by
  rcases a with ⟨ta, va⟩; rcases b with ⟨tb, vb⟩; rcases c with ⟨tc, vc⟩
  simp only [OutPoint.lt]
  omega

theorem OutPoint.eq_of_not_lt {a b : OutPoint} :
    ¬ OutPoint.lt a b → ¬ OutPoint.lt b a → a = b := by
  rcases a with ⟨ta, va⟩; rcases b with ⟨tb, vb⟩
  simp only [OutPoint.lt, OutPoint.mk.injEq]
  omega

/-- `ord::SatPoint`: an outpoint plus an offset into its value. -/
structure SatPoint where
  outpoint : OutPoint
  offset : Nat
deriving DecidableEq, Repr

/-- The indexer's `/output/{outpoint}` response (`OutputJson`), restricted to
the fields this subsystem reads: the `indexed` flag and the optional
`sat_ranges` list (absent means the indexer considers the output spent).
Inscription and rune metadata are not needed by the claims and are omitted. -/
structure OutputJson where
  indexed : Bool
  sat_ranges : Option (List (Nat × Nat))
deriving DecidableEq, Repr

/-- The semantic failures of the wallet layer.  Each constructor carries the
context the corresponding `bail!`/`panic!`/`ensure!` in the source embeds in
its message. -/
inductive WErr where
  /-- `check_version`: node below minimum, carrying the rendered message. -/
  | versionError (msg : String)
  /-- `bitcoin_client`: descriptor shape mismatch, naming the wallet. -/
  | walletShape (name : String)
  /-- `ord_client`: `panic!("wallet failed to synchronize to index")`. -/
  | syncPanic
  /-- `get_output`: output in Bitcoin Core wallet but not in ord index. -/
  | notIndexed (o : OutPoint)
  /-- `get_unspent_outputs`: `get_raw_transaction` failed for a locked output. -/
  | rawTxMissing (o : OutPoint)
  /-- `get_unspent_outputs`: `.output[vout]` indexing panicked (vout too big). -/
  | voutOutOfRange (o : OutPoint)
  /-- `get_output_sat_ranges`: output in wallet but spent according to index. -/
  | spentPerIndex (o : OutPoint)
  /-- `find_sat_in_outputs`: could not find sat in wallet outputs. -/
  | satNotFound (sat : Nat)
  /-- `ensure!` guard: index must be built with `--index-sats`. -/
  | satIndexRequired
deriving DecidableEq, Repr

/-- The environment: the decoded responses of the custodial node and of the
indexer, plus the wallet's configuration.  Both services are read-only during
one operation, so they are modelled as pure data. -/
structure Env where
  /-- `client.version()`. -/
  version : Nat
  /-- `self.name`. -/
  walletName : String
  /-- `client.list_descriptors(None)`: the descriptor strings. -/
  descriptors : List String
  /-- `client.get_block_count()`: the node's tip height. -/
  blockCount : Nat
  /-- The indexer's `/blockcount` body at the i-th poll of the sync loop. -/
  poll : Nat → Nat
  /-- `self.no_sync`. -/
  noSync : Bool
  /-- `client.list_unspent(...)`: outpoint and amount (in sats) per utxo. -/
  listUnspent : List (OutPoint × Nat)
  /-- `listlockunspent`: the node's locked outpoints. -/
  locked : List OutPoint
  /-- `client.get_raw_transaction(txid)`: the values of the tx's outputs,
  `none` when the node does not know the transaction. -/
  rawTx : Nat → Option (List Nat)
  /-- The indexer's `/output/{o}` response. -/
  output : OutPoint → OutputJson
  /-- The indexer's `/status` field `sat_index`. -/
  satIndex : Bool

/-! ## `check_version` and `format_bitcoin_core_version` -/

/-- `MIN_VERSION` in `check_version`. -/
def MIN_VERSION : Nat := 240000

/-- `format_bitcoin_core_version`: renders `major*10000 + minor*100 + patch`
as `major.minor.patch`. -/
def format_bitcoin_core_version (version : Nat) : String :=
  toString (version / 10000) ++ "." ++ toString (version % 10000 / 100)
    ++ "." ++ toString (version % 100)

/-- The message of the `bail!` in `check_version`. -/
def versionErrorMessage (required actual : Nat) : String :=
  "Bitcoin Core " ++ format_bitcoin_core_version required
    ++ " or newer required, current version is "
    ++ format_bitcoin_core_version actual

/-- `check_version`: succeed iff the node's version is at least `MIN_VERSION`. -/
def check_version (version : Nat) : Except WErr Unit :=
  if version < MIN_VERSION then
    .error (.versionError (versionErrorMessage MIN_VERSION version))
  else
    .ok ()

/-! ## `bitcoin_client`: wallet shape validation -/

/-- `str::starts_with`, as a character-prefix test (kernel-computable,
unlike `String.startsWith`). -/
def strStartsWith (s p : String) : Bool :=
  p.data.isPrefixOf s.data

/-- Count of descriptors whose string starts with `tr(`. -/
def trCount (descriptors : List String) : Nat :=
  (descriptors.filter (fun d => strStartsWith d "tr(")).length

/-- Count of descriptors whose string starts with `rawtr(`. -/
def rawtrCount (descriptors : List String) : Nat :=
  (descriptors.filter (fun d => strStartsWith d "rawtr(")).length

/-- `Wallet::bitcoin_client`, as a pure check: version guard, then the
descriptor shape test `tr == 2 && descriptors.len() == 2 + rawtr`.
(Loading the wallet is a transport step and is not modelled.) -/
def bitcoin_client (env : Env) : Except WErr Unit :=
  match check_version env.version with
  | .error e => .error e
  | .ok () =>
    if trCount env.descriptors ≠ 2 ∨
        env.descriptors.length ≠ 2 + rawtrCount env.descriptors then
      .error (.walletShape env.walletName)
    else
      .ok ()

/-! ## `ord_client`: the index sync gate -/

/-- Result of the sync polling loop, recording how many `/blockcount`
requests were made. -/
inductive SyncResult where
  | success (polls : Nat)
  | failure (polls : Nat)
deriving DecidableEq, Repr

/-- The body of `for i in 0.. { ... }` in `ord_client`, from attempt `i` on.
At attempt `i` the indexer is polled; if the reported height reaches the
target the loop breaks, otherwise if `i == 20` it panics, otherwise it sleeps
and continues.  `fuel` bounds the recursion; `ord_client` always leaves at
attempt 20 at the latest, so `fuel = 21 - i` never runs out. -/
def syncLoopAux (poll : Nat → Nat) (target : Nat) : Nat → Nat → SyncResult
  | _, 0 => .failure 0
  | i, fuel + 1 =>
    if poll i ≥ target then .success (i + 1)
    else if i = 20 then .failure (i + 1)
    else syncLoopAux poll target (i + 1) fuel

/-- The sync polling loop of `ord_client`, started at attempt 0. -/
def syncLoop (poll : Nat → Nat) (target : Nat) : SyncResult :=
  syncLoopAux poll target 0 21

/-- `Wallet::ord_client`: validate the node client, compute the target
`get_block_count() + 1`, and unless `no_sync` is set poll the indexer until
it reaches the target, panicking after the attempt budget is exhausted. -/
def ord_client (env : Env) : Except WErr Unit :=
  match bitcoin_client env with
  | .error e => .error e
  | .ok () =>
    if env.noSync then .ok ()
    else
      match syncLoop env.poll (env.blockCount + 1) with
      | .success _ => .ok ()
      | .failure _ => .error .syncPanic

/-! ## The `BTreeMap`/`BTreeSet` model

`BTreeMap<OutPoint, Amount>` is modelled as a list of pairs kept strictly
sorted by key; `insert` places the new binding at its ordered position,
replacing an existing binding with the same key.  `BTreeSet<OutPoint>` is the
same on bare keys. -/

/-- `BTreeMap::insert` on a strictly key-sorted association list. -/
def btreeInsert (k : OutPoint) (v : Nat) :
    List (OutPoint × Nat) → List (OutPoint × Nat)
  | [] => [(k, v)]
  | (k', v') :: rest =>
    if OutPoint.lt k k' then (k, v) :: (k', v') :: rest
    else if k = k' then (k, v) :: rest
    else (k', v') :: btreeInsert k v rest

/-- `BTreeSet::insert` on a strictly sorted list. -/
def btreeSetInsert (k : OutPoint) : List OutPoint → List OutPoint
  | [] => [k]
  | k' :: rest =>
    if OutPoint.lt k k' then k :: k' :: rest
    else if k = k' then k' :: rest
    else k' :: btreeSetInsert k rest

/-- The key list of a map, in iteration order (`BTreeMap::keys`). -/
def mapKeys (m : List (OutPoint × Nat)) : List OutPoint :=
  m.map Prod.fst

/-- First-match lookup in an association list; on a well-formed map the key
occurs at most once, so this is the map's value at `k`. -/
def mapLookup (k : OutPoint) : List (OutPoint × Nat) → Option Nat
  | [] => none
  | (k', v) :: rest => if k' = k then some v else mapLookup k rest

/-- Number of bindings a map holds for key `k`. -/
def countKey (k : OutPoint) (m : List (OutPoint × Nat)) : Nat :=
  (m.filter (fun p => p.1 = k)).length

/-- The well-formedness invariant of the `BTreeMap` model: keys strictly
increasing along the list. -/
abbrev SortedMap (m : List (OutPoint × Nat)) : Prop :=
  m.Pairwise (fun p q => OutPoint.lt p.1 q.1)

/-! ## `get_output`, `get_unspent_outputs`, `get_output_sat_ranges`,
`find_sat_in_outputs` -/

/-- `Wallet::get_output`: fetch `/output/{o}` (through `ord_client`) and fail
when the response is not flagged `indexed`. -/
def get_output (env : Env) (o : OutPoint) : Except WErr OutputJson :=
  match ord_client env with
  | .error e => .error e
  | .ok () =>
    if (env.output o).indexed = false then .error (.notIndexed o)
    else .ok (env.output o)

/-- The amount the locked-output pass reads for outpoint `o`: output `vout`
of the raw transaction `txid`. -/
def rawAmount (env : Env) (o : OutPoint) : Option Nat :=
  (env.rawTx o.txid).bind (fun outs => outs[o.vout]?)

/-- Step 1 of `get_unspent_outputs`: `utxos.extend(list_unspent ...)`. -/
def baseUtxos (env : Env) : List (OutPoint × Nat) :=
  env.listUnspent.foldl (fun m kv => btreeInsert kv.1 kv.2 m) []

/-- `Wallet::get_locked_outputs`: collect `listlockunspent` into a
`BTreeSet`. -/
def get_locked_outputs (env : Env) : Except WErr (List OutPoint) :=
  match bitcoin_client env with
  | .error e => .error e
  | .ok () => .ok (env.locked.foldl (fun s o => btreeSetInsert o s) [])

/-- Step 2 of `get_unspent_outputs`: for each locked outpoint, fetch its raw
transaction and insert the value at its output index.  Each iteration
re-acquires the node client (`self.bitcoin_client()?`). -/
def mergeLocked (env : Env) :
    List OutPoint → List (OutPoint × Nat) → Except WErr (List (OutPoint × Nat))
  | [], m => .ok m
  | o :: rest, m =>
    match bitcoin_client env with
    | .error e => .error e
    | .ok () =>
      match env.rawTx o.txid with
      | none => .error (.rawTxMissing o)
      | some outs =>
        match outs[o.vout]? with
        | none => .error (.voutOutOfRange o)
        | some v => mergeLocked env rest (btreeInsert o v m)

/-- Step 3 of `get_unspent_outputs`: `for output in utxos.keys() {
self.get_output(output)?; }`. -/
def checkIndexed (env : Env) : List (OutPoint × Nat) → Except WErr Unit
  | [] => .ok ()
  | (o, _) :: rest =>
    match get_output env o with
    | .error e => .error e
    | .ok _ => checkIndexed env rest

/-- `Wallet::get_unspent_outputs`: base listing, locked-output merge, then
the indexed check on every key. -/
def get_unspent_outputs (env : Env) : Except WErr (List (OutPoint × Nat)) :=
  match bitcoin_client env with
  | .error e => .error e
  | .ok () =>
    match get_locked_outputs env with
    | .error e => .error e
    | .ok lockedSet =>
      match mergeLocked env lockedSet (baseUtxos env) with
      | .error e => .error e
      | .ok utxos =>
        match checkIndexed env utxos with
        | .error e => .error e
        | .ok () => .ok utxos

/-- `Wallet::check_sat_index`: `/status`'s `sat_index` flag, fetched through
`ord_client`. -/
def check_sat_index (env : Env) : Except WErr Bool :=
  match ord_client env with
  | .error e => .error e
  | .ok () => .ok env.satIndex

/-- The loop of `get_output_sat_ranges`: each output of the reconciled set
must report a `sat_ranges` list; an output with none is an inconsistency. -/
def satRangesLoop (env : Env) :
    List (OutPoint × Nat) → Except WErr (List (OutPoint × List (Nat × Nat)))
  | [] => .ok []
  | (o, _) :: rest =>
    match get_output env o with
    | .error e => .error e
    | .ok oj =>
      match oj.sat_ranges with
      | some rs =>
        match satRangesLoop env rest with
        | .error e => .error e
        | .ok tl => .ok ((o, rs) :: tl)
      | none => .error (.spentPerIndex o)

/-- `Wallet::get_output_sat_ranges`. -/
def get_output_sat_ranges (env : Env) :
    Except WErr (List (OutPoint × List (Nat × Nat))) :=
  match check_sat_index env with
  | .error e => .error e
  | .ok si =>
    if si = false then .error .satIndexRequired
    else
      match get_unspent_outputs env with
      | .error e => .error e
      | .ok utxos => satRangesLoop env utxos

/-- The inner loop of `find_sat_in_outputs`: scan one output's range list
with a running offset; `start <= sat < end` returns `offset + sat - start`
(i.e. `offset + sat.n() - start` in `u64`, no underflow since
`start ≤ sat`), otherwise `end - start` is added to the offset. -/
def findSatInRanges (sat : Nat) (offset : Nat) :
    List (Nat × Nat) → Option Nat
  | [] => none
  | (s, e) :: rest =>
    if s ≤ sat ∧ sat < e then some (offset + sat - s)
    else findSatInRanges sat (offset + (e - s)) rest

/-- The outer loop of `find_sat_in_outputs`: outputs in map order; outputs
whose `sat_ranges` is absent are skipped; exhaustion fails naming the sat. -/
def findSatLoop (env : Env) (sat : Nat) :
    List (OutPoint × Nat) → Except WErr SatPoint
  | [] => .error (.satNotFound sat)
  | (o, _) :: rest =>
    match get_output env o with
    | .error e => .error e
    | .ok oj =>
      match oj.sat_ranges with
      | some rs =>
        match findSatInRanges sat 0 rs with
        | some off => .ok ⟨o, off⟩
        | none => findSatLoop env sat rest
      | none => findSatLoop env sat rest

/-- `Wallet::find_sat_in_outputs`. -/
def find_sat_in_outputs (env : Env) (sat : Nat)
    (utxos : List (OutPoint × Nat)) : Except WErr SatPoint :=
  match check_sat_index env with
  | .error e => .error e
  | .ok si =>
    if si = false then .error .satIndexRequired
    else findSatLoop env sat utxos

/-! ## `initialize` and `derive_and_import_descriptor`

BIP32 key material is modelled symbolically: an extended key is its seed
together with the derivation path applied to it (`derive_priv` appends), and
a fingerprint is an opaque tag of the key it was computed from.  The
cryptographic key bytes are irrelevant to the claims, which are about which
paths, flags and origins are sent to the node; `to_public` preserves origin,
derivation path and wildcard, so the record is unchanged by it. -/

/-- The network, as far as `initialize` reads it. -/
inductive Network where
  | bitcoin
  | testnet
  | signet
  | regtest
deriving DecidableEq, Repr

/-- `bitcoin::bip32::ChildNumber`. -/
inductive ChildNumber where
  | hardened (index : Nat)
  | normal (index : Nat)
deriving DecidableEq, Repr

/-- `bitcoin::bip32::DerivationPath`. -/
abbrev DerivPath := List ChildNumber

/-- Symbolic `ExtendedPrivKey`: the master seed plus the path derived so
far. -/
structure XKey where
  seed : List Nat
  path : DerivPath
deriving DecidableEq, Repr

/-- `ExtendedPrivKey::new_master(network, &seed)`. -/
def XKey.newMaster (seed : List Nat) : XKey :=
  { seed := seed, path := [] }

/-- `ExtendedPrivKey::derive_priv`: extend the path. -/
def XKey.derivePriv (k : XKey) (p : DerivPath) : XKey :=
  { k with path := k.path ++ p }

/-- Symbolic `Fingerprint`: tags the key it was computed from. -/
structure Fingerprint where
  ofKey : XKey
deriving DecidableEq, Repr

/-- `master_private_key.fingerprint(&secp)`. -/
def XKey.fingerprint (k : XKey) : Fingerprint :=
  { ofKey := k }

/-- `miniscript::descriptor::Wildcard`. -/
inductive Wildcard where
  | wnone
  | unhardened
  | whardened
deriving DecidableEq, Repr

/-- `miniscript::descriptor::DescriptorXKey`, on the symbolic key. -/
structure DescriptorXKeyM where
  origin : Option (Fingerprint × DerivPath)
  xkey : XKey
  derivation_path : DerivPath
  wildcard : Wildcard
deriving DecidableEq, Repr

/-- `Descriptor::new_tr(key, None)`: a taproot single-key descriptor. -/
inductive DescriptorM where
  | tr (key : DescriptorXKeyM)
deriving DecidableEq, Repr

/-- `bitcoincore_rpc_json::Timestamp`. -/
inductive TimestampM where
  | now
  | time (t : Nat)
deriving DecidableEq, Repr

/-- The `ImportDescriptors` request `derive_and_import_descriptor` sends. -/
structure ImportDescriptorsReq where
  descriptor : DescriptorM
  timestamp : TimestampM
  active : Option Bool
  range : Option (Nat × Nat)
  next_index : Option Nat
  internal : Option Bool
  label : Option String
deriving DecidableEq, Repr

/-- `Wallet::derive_and_import_descriptor`, as the request it sends: wrap the
derived key with its origin, one non-hardened child step `change.into()`, an
unhardened wildcard, into a `tr` descriptor imported active, anchored at
"now", with `internal = change`. -/
def derive_and_import_descriptor (origin : Fingerprint × DerivPath)
    (derived_private_key : XKey) (change : Bool) : ImportDescriptorsReq :=
  let secret_key : DescriptorXKeyM :=
    { origin := some origin
      xkey := derived_private_key
      derivation_path := [ChildNumber.normal change.toNat]
      wildcard := Wildcard.unhardened }
  { descriptor := DescriptorM.tr secret_key
    timestamp := TimestampM.now
    active := some true
    range := none
    next_index := none
    internal := some change
    label := none }

/-- The hardened path `Wallet::initialize` derives:
`m/86'/{u32::from(network != Network::Bitcoin)}'/0'`. -/
def initDerivationPath (network : Network) : DerivPath :=
  [ChildNumber.hardened 86,
   ChildNumber.hardened (if network ≠ Network.bitcoin then 1 else 0),
   ChildNumber.hardened 0]

/-- `Wallet::initialize`, as the ordered list of descriptor-import requests
it sends after the version guard passes (wallet creation itself is a
transport step).  The loop runs `for change in [false, true]`. -/
def initWallet (env : Env) (network : Network) (seed : List Nat) :
    Except WErr (List ImportDescriptorsReq) :=
  match check_version env.version with
  | .error e => .error e
  | .ok () =>
    let master_private_key := XKey.newMaster seed
    let fingerprint := master_private_key.fingerprint
    let derivation_path := initDerivationPath network
    let derived_private_key := master_private_key.derivePriv derivation_path
    .ok ([false, true].map (fun change =>
      derive_and_import_descriptor (fingerprint, derivation_path)
        derived_private_key change))

/-! ## Lemmas on the map model -/

theorem mem_keys_btreeInsert {k k' : OutPoint} {v : Nat}
    {m : List (OutPoint × Nat)} :
    k ∈ mapKeys (btreeInsert k' v m) ↔ k = k' ∨ k ∈ mapKeys m := by
  induction m with
  | nil => simp [btreeInsert, mapKeys]
  | cons p rest ih =>
    obtain ⟨k₀, v₀⟩ := p
    by_cases hlt : OutPoint.lt k' k₀
    · simp only [btreeInsert, if_pos hlt, mapKeys, List.map_cons, List.mem_cons]
    · by_cases heq : k' = k₀
      · subst heq
        simp [btreeInsert, hlt, mapKeys]
      · simp only [mapKeys] at ih
        simp only [btreeInsert, if_neg hlt, if_neg heq, mapKeys, List.map_cons,
          List.mem_cons]
        rw [ih]
        tauto

theorem mapLookup_btreeInsert_self {k : OutPoint} {v : Nat}
    {m : List (OutPoint × Nat)} :
    mapLookup k (btreeInsert k v m) = some v := by
  induction m with
  | nil => simp [btreeInsert, mapLookup]
  | cons p rest ih =>
    obtain ⟨k₀, v₀⟩ := p
    by_cases hlt : OutPoint.lt k k₀
    · simp [btreeInsert, hlt, mapLookup]
    · by_cases heq : k = k₀
      · subst heq
        simp [btreeInsert, hlt, mapLookup]
      · simp [btreeInsert, hlt, heq, mapLookup, Ne.symm heq, ih]

theorem mapLookup_btreeInsert_ne {k k' : OutPoint} {v : Nat}
    {m : List (OutPoint × Nat)} (hne : k ≠ k') :
    mapLookup k (btreeInsert k' v m) = mapLookup k m := by
  induction m with
  | nil => simp [btreeInsert, mapLookup, Ne.symm hne]
  | cons p rest ih =>
    obtain ⟨k₀, v₀⟩ := p
    by_cases hlt : OutPoint.lt k' k₀
    · simp [btreeInsert, hlt, mapLookup, Ne.symm hne]
    · by_cases heq : k' = k₀
      · subst heq
        simp [btreeInsert, hlt, mapLookup, Ne.symm hne]
      · simp [btreeInsert, hlt, heq, mapLookup, ih]

theorem mem_keys_iff_mapLookup {k : OutPoint} {m : List (OutPoint × Nat)} :
    k ∈ mapKeys m ↔ ∃ v, mapLookup k m = some v := by
  induction m with
  | nil => simp [mapKeys, mapLookup]
  | cons p rest ih =>
    obtain ⟨k₀, v₀⟩ := p
    by_cases heq : k₀ = k
    · subst heq
      simp [mapKeys, mapLookup]
    · simp only [mapKeys, List.map_cons, List.mem_cons, mapLookup, if_neg heq] at ih ⊢
      rw [ih]
      have : ¬ k = k₀ := fun h => heq h.symm
      tauto

theorem sortedMap_btreeInsert {k : OutPoint} {v : Nat}
    {m : List (OutPoint × Nat)} (h : SortedMap m) :
    SortedMap (btreeInsert k v m) := by
  induction m with
  | nil => simp [btreeInsert, SortedMap]
  | cons p rest ih =>
    obtain ⟨k₀, v₀⟩ := p
    obtain ⟨hall, hrest⟩ := List.pairwise_cons.1 h
    by_cases hlt : OutPoint.lt k k₀
    · simp only [btreeInsert, if_pos hlt]
      refine List.Pairwise.cons ?_ (List.Pairwise.cons hall hrest)
      intro q hq
      rcases List.mem_cons.1 hq with hq | hq
      · subst hq; exact hlt
      · exact OutPoint.lt_trans hlt (hall q hq)
    · by_cases heq : k = k₀
      · subst heq
        simp only [btreeInsert, if_neg hlt, if_pos rfl]
        exact List.Pairwise.cons hall hrest
      · have hk₀k : OutPoint.lt k₀ k := by
          by_contra hnot
          exact heq (OutPoint.eq_of_not_lt hlt hnot)
        simp only [btreeInsert, if_neg hlt, if_neg heq]
        refine List.pairwise_cons.2 ⟨?_, ih hrest⟩
        intro q hq
        have hqk : q.1 = k ∨ q.1 ∈ mapKeys rest := by
          refine (@mem_keys_btreeInsert q.1 k v rest).1 ?_
          exact List.mem_map_of_mem Prod.fst hq
        rcases hqk with hq1 | hq1
        · rw [hq1]; exact hk₀k
        · obtain ⟨q', hq', hq'eq⟩ := List.mem_map.1 hq1
          have := hall q' hq'
          rw [hq'eq] at this
          exact this

theorem nodup_keys_of_sortedMap {m : List (OutPoint × Nat)}
    (h : SortedMap m) : (mapKeys m).Nodup := by
  rw [mapKeys]
  induction h with
  | nil => simp
  | cons hall _ ih =>
    simp only [List.map_cons, List.nodup_cons]
    refine ⟨?_, ih⟩
    intro hmem
    obtain ⟨q, hq, hqeq⟩ := List.mem_map.1 hmem
    have := hall q hq
    rw [hqeq] at this
    exact OutPoint.lt_irrefl _ this

theorem countKey_eq_one_of_mem {k : OutPoint} {m : List (OutPoint × Nat)}
    (hnd : (mapKeys m).Nodup) (hmem : k ∈ mapKeys m) : countKey k m = 1 := by
  induction m with
  | nil => simp [mapKeys] at hmem
  | cons p rest ih =>
    obtain ⟨k₀, v₀⟩ := p
    simp only [mapKeys, List.map_cons, List.nodup_cons] at hnd
    obtain ⟨hk₀, hndrest⟩ := hnd
    rcases List.mem_cons.1 hmem with hk | hk
    · have hkk : k₀ = k := hk.symm
      subst hkk
      have hz : (rest.filter (fun p => p.1 = k₀)).length = 0 := by
        rw [List.length_eq_zero, List.filter_eq_nil_iff]
        intro q hq hq1
        have hq1' : q.1 = k₀ := by simpa using hq1
        exact hk₀ (hq1' ▸ List.mem_map_of_mem Prod.fst hq)
      simp [countKey, List.filter_cons, hz]
    · have hne : ¬ (k₀ = k) := by
        intro hcontra
        subst hcontra
        exact hk₀ (by simpa [mapKeys] using hk)
      have hrest := ih hndrest (by simpa [mapKeys] using hk)
      simpa [countKey, List.filter_cons, hne] using hrest

/-! ## Lemmas on the reconciliation pipeline -/

theorem sortedMap_foldl_insert (l : List (OutPoint × Nat))
    (m : List (OutPoint × Nat)) (h : SortedMap m) :
    SortedMap (l.foldl (fun m kv => btreeInsert kv.1 kv.2 m) m) := by
  induction l generalizing m with
  | nil => exact h
  | cons kv rest ih =>
    exact ih _ (sortedMap_btreeInsert h)

theorem mem_keys_foldl_insert {k : OutPoint} (l : List (OutPoint × Nat))
    (m : List (OutPoint × Nat)) :
    k ∈ mapKeys (l.foldl (fun m kv => btreeInsert kv.1 kv.2 m) m) ↔
      k ∈ l.map Prod.fst ∨ k ∈ mapKeys m := by
  induction l generalizing m with
  | nil => simp
  | cons kv rest ih =>
    simp only [List.foldl_cons, List.map_cons, List.mem_cons]
    rw [ih]
    rw [mem_keys_btreeInsert]
    tauto

theorem sortedMap_baseUtxos (env : Env) : SortedMap (baseUtxos env) :=
  sortedMap_foldl_insert _ _ (by simp [SortedMap])

theorem mem_keys_baseUtxos {env : Env} {k : OutPoint} :
    k ∈ mapKeys (baseUtxos env) ↔ k ∈ env.listUnspent.map Prod.fst := by
  rw [baseUtxos, mem_keys_foldl_insert]
  simp [mapKeys]

theorem mem_btreeSetInsert {k k' : OutPoint} {s : List OutPoint} :
    k ∈ btreeSetInsert k' s ↔ k = k' ∨ k ∈ s := by
  induction s with
  | nil => simp [btreeSetInsert]
  | cons k₀ rest ih =>
    by_cases hlt : OutPoint.lt k' k₀
    · simp [btreeSetInsert, hlt]
    · by_cases heq : k' = k₀
      · subst heq
        simp [btreeSetInsert, hlt]
      · simp only [btreeSetInsert, if_neg hlt, if_neg heq, List.mem_cons]
        rw [ih]
        tauto

theorem mem_foldl_setInsert {k : OutPoint} (l s : List OutPoint) :
    k ∈ l.foldl (fun s o => btreeSetInsert o s) s ↔ k ∈ l ∨ k ∈ s := by
  induction l generalizing s with
  | nil => simp
  | cons k₀ rest ih =>
    simp only [List.foldl_cons, List.mem_cons]
    rw [ih, mem_btreeSetInsert]
    tauto

theorem get_locked_outputs_ok {env : Env} {ls : List OutPoint}
    (h : get_locked_outputs env = .ok ls) :
    bitcoin_client env = .ok () ∧ ∀ k, (k ∈ ls ↔ k ∈ env.locked) := by
  rw [get_locked_outputs] at h
  cases hbc : bitcoin_client env with
  | error e => rw [hbc] at h; exact absurd h (by simp)
  | ok u =>
    cases u
    rw [hbc] at h
    refine ⟨rfl, ?_⟩
    cases h
    intro k
    rw [mem_foldl_setInsert]
    simp

theorem mergeLocked_ok_facts {env : Env} {l : List OutPoint}
    {m u : List (OutPoint × Nat)} (h : mergeLocked env l m = .ok u) :
    (∀ k, k ∈ mapKeys u ↔ k ∈ l ∨ k ∈ mapKeys m) ∧
    (∀ k, k ∈ l → mapLookup k u = rawAmount env k) ∧
    (∀ k, k ∉ l → mapLookup k u = mapLookup k m) ∧
    (SortedMap m → SortedMap u) := by
  induction l generalizing m with
  | nil =>
    rw [mergeLocked] at h
    cases h
    exact ⟨fun k => by simp, fun k hk => absurd hk (List.not_mem_nil k),
      fun k _ => rfl, fun hs => hs⟩
  | cons o rest ih =>
    cases hbc : bitcoin_client env with
    | error e =>
      simp only [mergeLocked, hbc] at h
      exact Except.noConfusion h
    | ok uu =>
      cases uu
      cases hraw : env.rawTx o.txid with
      | none =>
        simp only [mergeLocked, hbc, hraw] at h
        exact Except.noConfusion h
      | some outs =>
        cases hv : outs[o.vout]? with
        | none =>
          simp only [mergeLocked, hbc, hraw, hv] at h
          exact Except.noConfusion h
        | some v =>
          simp only [mergeLocked, hbc, hraw, hv] at h
          obtain ⟨hkeys, hin, hout, hsort⟩ := ih h
          have hrawo : rawAmount env o = some v := by
            rw [rawAmount, hraw]
            simpa using hv
          refine ⟨?_, ?_, ?_, ?_⟩
          · intro k
            rw [hkeys k, mem_keys_btreeInsert]
            simp only [List.mem_cons]
            tauto
          · intro k hk
            rcases List.mem_cons.1 hk with hk | hk
            · subst hk
              by_cases hkr : k ∈ rest
              · exact hin k hkr
              · rw [hout k hkr, mapLookup_btreeInsert_self, hrawo]
            · exact hin k hk
          · intro k hk
            have hko : k ≠ o := fun hcontra => hk (hcontra ▸ List.mem_cons_self o rest)
            have hkr : k ∉ rest := fun hcontra => hk (List.mem_cons_of_mem o hcontra)
            rw [hout k hkr, mapLookup_btreeInsert_ne hko]
          · intro hs
            exact hsort (sortedMap_btreeInsert hs)

theorem get_output_ok_iff {env : Env} {o : OutPoint} {oj : OutputJson} :
    get_output env o = .ok oj ↔
      ord_client env = .ok () ∧ (env.output o).indexed = true ∧
        oj = env.output o := by
  rw [get_output]
  cases hoc : ord_client env with
  | error e => simp
  | ok uu =>
    cases uu
    cases hidx : (env.output o).indexed with
    | false => simp [hidx]
    | true => simp [hidx, eq_comm]

theorem get_output_err_of_not_indexed {env : Env} {o : OutPoint}
    (hoc : ord_client env = .ok ()) (hidx : (env.output o).indexed = false) :
    get_output env o = .error (.notIndexed o) := by
  rw [get_output, hoc, hidx]
  simp

theorem checkIndexed_ok_indexed {env : Env} {u : List (OutPoint × Nat)}
    (h : checkIndexed env u = .ok ()) :
    ∀ p ∈ u, (env.output p.1).indexed = true := by
  induction u with
  | nil => intro p hp; exact absurd hp (List.not_mem_nil p)
  | cons q rest ih =>
    obtain ⟨o, v⟩ := q
    intro p hp
    cases hgo : get_output env o with
    | error e =>
      rw [checkIndexed, hgo] at h
      exact Except.noConfusion h
    | ok oj =>
      rw [checkIndexed, hgo] at h
      rcases List.mem_cons.1 hp with hp | hp
      · subst hp
        exact (get_output_ok_iff.1 hgo).2.1
      · exact ih h p hp

theorem checkIndexed_err_of_bad {env : Env} {u : List (OutPoint × Nat)}
    (hoc : ord_client env = .ok ())
    (hbad : ∃ p ∈ u, (env.output p.1).indexed = false) :
    ∃ o, o ∈ mapKeys u ∧ (env.output o).indexed = false ∧
      checkIndexed env u = .error (.notIndexed o) := by
  induction u with
  | nil => obtain ⟨p, hp, _⟩ := hbad; exact absurd hp (List.not_mem_nil p)
  | cons q rest ih =>
    obtain ⟨o, v⟩ := q
    cases hidx : (env.output o).indexed with
    | false =>
      refine ⟨o, List.mem_cons_self _ _, hidx, ?_⟩
      rw [checkIndexed, get_output_err_of_not_indexed hoc hidx]
    | true =>
      have hgo : get_output env o = .ok (env.output o) :=
        get_output_ok_iff.2 ⟨hoc, hidx, rfl⟩
      have hbad' : ∃ p ∈ rest, (env.output p.1).indexed = false := by
        obtain ⟨p, hp, hpidx⟩ := hbad
        rcases List.mem_cons.1 hp with hp | hp
        · subst hp
          rw [hidx] at hpidx
          exact Bool.noConfusion hpidx
        · exact ⟨p, hp, hpidx⟩
      obtain ⟨o', ho', hidx', herr⟩ := ih hbad'
      refine ⟨o', ?_, hidx', ?_⟩
      · exact List.mem_cons_of_mem _ ho'
      · rw [checkIndexed, hgo, herr]

/-- The reconciled set before the indexed check, i.e. steps 1 and 2 of
`get_unspent_outputs` (base listing plus locked-output merge). -/
def buildUtxos (env : Env) : Except WErr (List (OutPoint × Nat)) :=
  match bitcoin_client env with
  | .error e => .error e
  | .ok () =>
    match get_locked_outputs env with
    | .error e => .error e
    | .ok lockedSet => mergeLocked env lockedSet (baseUtxos env)

theorem get_unspent_outputs_eq {env : Env} :
    get_unspent_outputs env =
      match buildUtxos env with
      | .error e => .error e
      | .ok utxos =>
        match checkIndexed env utxos with
        | .error e => .error e
        | .ok () => .ok utxos := by
  rw [get_unspent_outputs, buildUtxos]
  cases hbc : bitcoin_client env with
  | error e => rfl
  | ok uu =>
    cases uu
    cases hlo : get_locked_outputs env with
    | error e => rfl
    | ok ls => rfl

theorem buildUtxos_ok_facts {env : Env} {u : List (OutPoint × Nat)}
    (h : buildUtxos env = .ok u) :
    SortedMap u ∧
    (∀ k, k ∈ mapKeys u ↔
      k ∈ env.listUnspent.map Prod.fst ∨ k ∈ env.locked) ∧
    (∀ k, k ∈ env.locked → mapLookup k u = rawAmount env k) := by
  rw [buildUtxos] at h
  cases hbc : bitcoin_client env with
  | error e => rw [hbc] at h; exact Except.noConfusion h
  | ok uu =>
    cases uu
    rw [hbc] at h
    cases hlo : get_locked_outputs env with
    | error e => rw [hlo] at h; exact Except.noConfusion h
    | ok ls =>
      rw [hlo] at h
      obtain ⟨-, hls⟩ := get_locked_outputs_ok hlo
      obtain ⟨hkeys, hin, _, hsort⟩ := mergeLocked_ok_facts h
      refine ⟨hsort (sortedMap_baseUtxos env), ?_, ?_⟩
      · intro k
        rw [hkeys k, mem_keys_baseUtxos, hls k]
        tauto
      · intro k hk
        exact hin k ((hls k).2 hk)

theorem get_unspent_outputs_ok_facts {env : Env} {u : List (OutPoint × Nat)}
    (h : get_unspent_outputs env = .ok u) :
    buildUtxos env = .ok u ∧ checkIndexed env u = .ok () := by
  rw [get_unspent_outputs_eq] at h
  cases hb : buildUtxos env with
  | error e =>
    rw [hb] at h
    exact Except.noConfusion h
  | ok u' =>
    simp only [hb] at h
    cases hc : checkIndexed env u' with
    | error e =>
      simp only [hc] at h
      exact Except.noConfusion h
    | ok uu =>
      cases uu
      simp only [hc] at h
      cases h
      exact ⟨rfl, hc⟩

/-! ## Lemmas on `get_output_sat_ranges` -/

theorem satRangesLoop_ok_keys {env : Env} {u : List (OutPoint × Nat)}
    {l : List (OutPoint × List (Nat × Nat))}
    (h : satRangesLoop env u = .ok l) : l.map Prod.fst = mapKeys u := by
  induction u generalizing l with
  | nil =>
    rw [satRangesLoop] at h
    cases h
    simp [mapKeys]
  | cons q rest ih =>
    obtain ⟨o, v⟩ := q
    cases hgo : get_output env o with
    | error e =>
      simp only [satRangesLoop, hgo] at h
      exact Except.noConfusion h
    | ok oj =>
      cases hsr : oj.sat_ranges with
      | none =>
        simp only [satRangesLoop, hgo, hsr] at h
        exact Except.noConfusion h
      | some rs =>
        cases htl : satRangesLoop env rest with
        | error e =>
          simp only [satRangesLoop, hgo, hsr, htl] at h
          exact Except.noConfusion h
        | ok tl =>
          simp only [satRangesLoop, hgo, hsr, htl] at h
          cases h
          simp only [List.map_cons, mapKeys]
          rw [show tl.map Prod.fst = mapKeys rest from ih htl]
          rfl

theorem satRangesLoop_err_of_spent {env : Env} {u : List (OutPoint × Nat)}
    (hoc : ord_client env = .ok ())
    (hidx : ∀ p ∈ u, (env.output p.1).indexed = true)
    (hbad : ∃ p ∈ u, (env.output p.1).sat_ranges = none) :
    ∃ o, o ∈ mapKeys u ∧ (env.output o).sat_ranges = none ∧
      satRangesLoop env u = .error (.spentPerIndex o) := by
  induction u with
  | nil => obtain ⟨p, hp, _⟩ := hbad; exact absurd hp (List.not_mem_nil p)
  | cons q rest ih =>
    obtain ⟨o, v⟩ := q
    have hgo : get_output env o = .ok (env.output o) :=
      get_output_ok_iff.2 ⟨hoc, hidx (o, v) (List.mem_cons_self _ _), rfl⟩
    cases hsr : (env.output o).sat_ranges with
    | none =>
      refine ⟨o, List.mem_cons_self _ _, hsr, ?_⟩
      simp only [satRangesLoop, hgo, hsr]
    | some rs =>
      have hbad' : ∃ p ∈ rest, (env.output p.1).sat_ranges = none := by
        obtain ⟨p, hp, hpsr⟩ := hbad
        rcases List.mem_cons.1 hp with hp | hp
        · subst hp
          rw [hsr] at hpsr
          exact Option.noConfusion hpsr
        · exact ⟨p, hp, hpsr⟩
      obtain ⟨o', ho', hsr', herr⟩ :=
        ih (fun p hp => hidx p (List.mem_cons_of_mem _ hp)) hbad'
      refine ⟨o', List.mem_cons_of_mem _ ho', hsr', ?_⟩
      simp only [satRangesLoop, hgo, hsr, herr]

/-! ## Lemmas on `find_sat_in_outputs` -/

/-- Whether the half-open range `(start, end)` covers `sat`. -/
def rangeCovers (r : Nat × Nat) (sat : Nat) : Prop :=
  r.1 ≤ sat ∧ sat < r.2

instance (r : Nat × Nat) (sat : Nat) : Decidable (rangeCovers r sat) :=
  inferInstanceAs (Decidable (_ ∧ _))

/-- Sum of the lengths `end - start` of a range list. -/
def rangeLenSum (rs : List (Nat × Nat)) : Nat :=
  (rs.map (fun r => r.2 - r.1)).sum

theorem findSatInRanges_eq_none_iff {sat offset : Nat} {rs : List (Nat × Nat)} :
    findSatInRanges sat offset rs = none ↔ ∀ r ∈ rs, ¬ rangeCovers r sat := by
  induction rs generalizing offset with
  | nil => simp [findSatInRanges]
  | cons r rest ih =>
    obtain ⟨s, e⟩ := r
    by_cases hc : s ≤ sat ∧ sat < e
    · simp [findSatInRanges, hc, rangeCovers]
    · simp only [findSatInRanges, if_neg hc, List.mem_cons]
      rw [ih]
      constructor
      · intro hall r' hr'
        rcases hr' with hr' | hr'
        · subst hr'; exact fun hcov => hc ⟨hcov.1, hcov.2⟩
        · exact hall r' hr'
      · intro hall r' hr'
        exact hall r' (Or.inr hr')

theorem findSatInRanges_found {sat s e : Nat} {post : List (Nat × Nat)}
    (hs : s ≤ sat) (he : sat < e) :
    ∀ (pre : List (Nat × Nat)) (offset : Nat),
      (∀ r ∈ pre, ¬ rangeCovers r sat) →
      findSatInRanges sat offset (pre ++ (s, e) :: post) =
        some (offset + rangeLenSum pre + sat - s) := by
  intro pre
  induction pre with
  | nil =>
    intro offset _
    simp only [List.nil_append, findSatInRanges]
    rw [if_pos (show s ≤ sat ∧ sat < e from ⟨hs, he⟩)]
    have hz : offset + rangeLenSum [] + sat - s = offset + sat - s := by
      simp [rangeLenSum]
    rw [hz]
  | cons r rest ih =>
    obtain ⟨s', e'⟩ := r
    intro offset hpre
    have hnc : ¬ (s' ≤ sat ∧ sat < e') := hpre (s', e') (List.mem_cons_self _ _)
    simp only [List.cons_append, findSatInRanges, if_neg hnc, List.append_eq]
    rw [ih (offset + (e' - s'))
      (fun r' hr' => hpre r' (List.mem_cons_of_mem _ hr'))]
    congr 1
    simp only [rangeLenSum, List.map_cons, List.sum_cons]
    omega

theorem findSatLoop_skip_head {env : Env} {sat : Nat} {o : OutPoint} {v : Nat}
    {rest : List (OutPoint × Nat)}
    (hoc : ord_client env = .ok ())
    (hidx : (env.output o).indexed = true)
    (hnc : ∀ rs, (env.output o).sat_ranges = some rs →
      ∀ r ∈ rs, ¬ rangeCovers r sat) :
    findSatLoop env sat ((o, v) :: rest) = findSatLoop env sat rest := by
  have hgo : get_output env o = .ok (env.output o) :=
    get_output_ok_iff.2 ⟨hoc, hidx, rfl⟩
  cases hsr : (env.output o).sat_ranges with
  | none => simp only [findSatLoop, hgo, hsr]
  | some rs =>
    have hnone : findSatInRanges sat 0 rs = none :=
      findSatInRanges_eq_none_iff.2 (hnc rs hsr)
    simp only [findSatLoop, hgo, hsr, hnone]

theorem findSatLoop_not_found {env : Env} {sat : Nat}
    {u : List (OutPoint × Nat)}
    (hoc : ord_client env = .ok ())
    (hidx : ∀ p ∈ u, (env.output p.1).indexed = true)
    (hnc : ∀ p ∈ u, ∀ rs, (env.output p.1).sat_ranges = some rs →
      ∀ r ∈ rs, ¬ rangeCovers r sat) :
    findSatLoop env sat u = .error (.satNotFound sat) := by
  induction u with
  | nil => rw [findSatLoop]
  | cons q rest ih =>
    obtain ⟨o, v⟩ := q
    rw [findSatLoop_skip_head hoc (hidx (o, v) (List.mem_cons_self _ _))
      (hnc (o, v) (List.mem_cons_self _ _))]
    exact ih (fun p hp => hidx p (List.mem_cons_of_mem _ hp))
      (fun p hp => hnc p (List.mem_cons_of_mem _ hp))

theorem findSatLoop_found_head {env : Env} {sat : Nat} {o : OutPoint} {v : Nat}
    {rest : List (OutPoint × Nat)} {rs pre post : List (Nat × Nat)} {s e : Nat}
    (hoc : ord_client env = .ok ())
    (hidx : (env.output o).indexed = true)
    (hsr : (env.output o).sat_ranges = some rs)
    (hsplit : rs = pre ++ (s, e) :: post)
    (hpre : ∀ r ∈ pre, ¬ rangeCovers r sat)
    (hs : s ≤ sat) (he : sat < e) :
    findSatLoop env sat ((o, v) :: rest) =
      .ok ⟨o, rangeLenSum pre + sat - s⟩ := by
  have hgo : get_output env o = .ok (env.output o) :=
    get_output_ok_iff.2 ⟨hoc, hidx, rfl⟩
  have hfound : findSatInRanges sat 0 rs =
      some (rangeLenSum pre + sat - s) := by
    rw [hsplit, findSatInRanges_found hs he pre 0 hpre]
    congr 1
    omega
  simp only [findSatLoop, hgo, hsr, hfound]

/-! ## Lemmas on the sync gate -/

theorem syncLoopAux_exhausted {poll : Nat → Nat} {target : Nat} :
    ∀ fuel i, fuel = 21 - i → i ≤ 20 →
      (∀ j, i ≤ j → j ≤ 20 → poll j < target) →
      syncLoopAux poll target i fuel = .failure 21 := by
  intro fuel
  induction fuel with
  | zero => intro i hfuel hi _; omega
  | succ fuel ih =>
    intro i hfuel hi hall
    have hlow : poll i < target := hall i (Nat.le_refl i) hi
    rw [syncLoopAux]
    rw [if_neg (by omega)]
    by_cases h20 : i = 20
    · rw [if_pos h20, h20]
    · rw [if_neg h20]
      exact ih (i + 1) (by omega) (by omega)
        (fun j hj hj20 => hall j (by omega) hj20)

theorem syncLoopAux_reaches {poll : Nat → Nat} {target : Nat} :
    ∀ fuel i j, fuel = 21 - i → i ≤ j → j ≤ 20 → target ≤ poll j →
      (∀ k, i ≤ k → k < j → poll k < target) →
      syncLoopAux poll target i fuel = .success (j + 1) := by
  intro fuel
  induction fuel with
  | zero => intro i j hfuel hij hj _ _; omega
  | succ fuel ih =>
    intro i j hfuel hij hj hreach hbefore
    by_cases hq : i = j
    · subst hq
      rw [syncLoopAux, if_pos hreach]
    · have hlow : poll i < target := hbefore i (Nat.le_refl i) (by omega)
      rw [syncLoopAux]
      rw [if_neg (by omega)]
      rw [if_neg (by omega)]
      exact ih (i + 1) j (by omega) (by omega) hj hreach
        (fun k hk hkj => hbefore k (by omega) hkj)

theorem syncLoop_exhausted {poll : Nat → Nat} {target : Nat}
    (hall : ∀ j, j ≤ 20 → poll j < target) :
    syncLoop poll target = .failure 21 :=
  syncLoopAux_exhausted 21 0 rfl (by omega)
    (fun j _ hj20 => hall j hj20)

theorem syncLoop_reaches {poll : Nat → Nat} {target : Nat} {j : Nat}
    (hj : j ≤ 20) (hreach : target ≤ poll j)
    (hbefore : ∀ k, k < j → poll k < target) :
    syncLoop poll target = .success (j + 1) :=
  syncLoopAux_reaches 21 0 j rfl (Nat.zero_le j) hj hreach
    (fun k _ hkj => hbefore k hkj)

/-! ## Claim theorems -/

/-- Substring containment, witnessed by an explicit decomposition. -/
def strContains (s sub : String) : Prop :=
  ∃ a b, a ++ sub ++ b = s

/-- C8: `check_version` succeeds for every version at least `240000`; below
that it fails with an error whose message contains both the required and the
actual version rendered as `major.minor.patch` by `format_bitcoin_core_version`
(decomposing `version` as `major*10000 + minor*100 + patch`). -/
theorem claim_C8 (v : Nat) :
    (MIN_VERSION ≤ v → check_version v = .ok ()) ∧
    (v < MIN_VERSION →
      ∃ msg, check_version v = .error (.versionError msg) ∧
        strContains msg (format_bitcoin_core_version MIN_VERSION) ∧
        strContains msg (format_bitcoin_core_version v)) := by
  constructor
  · intro h
    rw [check_version, if_neg (by omega)]
  · intro h
    refine ⟨versionErrorMessage MIN_VERSION v, ?_, ?_, ?_⟩
    · rw [check_version, if_pos h]
    · refine ⟨"Bitcoin Core ",
        " or newer required, current version is "
          ++ format_bitcoin_core_version v, ?_⟩
      rw [versionErrorMessage]
      exact (String.append_assoc _ _ _).symm
    · refine ⟨"Bitcoin Core " ++ format_bitcoin_core_version MIN_VERSION
        ++ " or newer required, current version is ", "", ?_⟩
      rw [versionErrorMessage, String.append_empty]

/-- C8 witness: version `250000` is accepted; version `230100` is rejected
with a message containing `24.0.0` and `23.1.0`. -/
theorem claim_C8_witness :
    check_version 250000 = .ok () ∧
    ∃ msg, check_version 230100 = .error (.versionError msg) ∧
      strContains msg "24.0.0" ∧ strContains msg "23.1.0" := by
  constructor
  · exact (claim_C8 250000).1 (by decide)
  · have h := (claim_C8 230100).2 (by decide)
    have h1 : format_bitcoin_core_version MIN_VERSION = "24.0.0" := by decide
    have h2 : format_bitcoin_core_version 230100 = "23.1.0" := by decide
    rw [h1, h2] at h
    exact h

/-- C7: given a passing version guard, the wallet shape validation in
`bitcoin_client` succeeds exactly when the `tr(` descriptor count is 2 and
the total descriptor count is 2 plus the `rawtr(` count. -/
theorem claim_C7 (env : Env) (hv : check_version env.version = .ok ()) :
    bitcoin_client env = .ok () ↔
      (trCount env.descriptors = 2 ∧
        env.descriptors.length = 2 + rawtrCount env.descriptors) := by
  simp only [bitcoin_client, hv]
  by_cases hc : trCount env.descriptors ≠ 2 ∨
      env.descriptors.length ≠ 2 + rawtrCount env.descriptors
  · rw [if_pos hc]
    constructor
    · intro h
      exact Except.noConfusion h
    · intro h
      rcases hc with hc | hc
      · exact absurd h.1 hc
      · exact absurd h.2 hc
  · rw [if_neg hc]
    push_neg at hc
    exact ⟨fun _ => hc, fun _ => rfl⟩

/-- A minimal environment whose descriptor list is `ds`; only the fields
`bitcoin_client` reads matter here. -/
def envShape (ds : List String) : Env :=
  { version := 240000, walletName := "ord", descriptors := ds,
    blockCount := 0, poll := fun _ => 1, noSync := true,
    listUnspent := [], locked := [], rawTx := fun _ => none,
    output := fun _ => { indexed := true, sat_ranges := none },
    satIndex := true }

/-- C7 witness: exactly 2 taproot descriptors pass; 1 taproot plus 1
arbitrary descriptor fail; 3 taproot descriptors fail. -/
theorem claim_C7_witness :
    bitcoin_client (envShape ["tr(keyA)", "tr(keyB)"]) = .ok () ∧
    bitcoin_client (envShape ["tr(keyA)", "pkh(keyC)"]) ≠ .ok () ∧
    bitcoin_client (envShape ["tr(keyA)", "tr(keyB)", "tr(keyC)"]) ≠ .ok () := by
  refine ⟨?_, ?_, ?_⟩
  · exact (claim_C7 (envShape ["tr(keyA)", "tr(keyB)"]) (by decide)).2
      (by decide)
  · intro h
    have hc := (claim_C7 (envShape ["tr(keyA)", "pkh(keyC)"]) (by decide)).1 h
    revert hc
    decide
  · intro h
    have hc := (claim_C7 (envShape ["tr(keyA)", "tr(keyB)", "tr(keyC)"])
      (by decide)).1 h
    revert hc
    decide

/-- C4 counterexample: with an indexer that never reaches the target, the
sync loop does not stop after 20 polls — it makes 21 `/blockcount` requests
(attempt indices 0 through 20) before panicking. -/
theorem claim_C4_counterexample :
    syncLoop (fun _ => 0) 1 ≠ .failure 20 ∧
    syncLoop (fun _ => 0) 1 = .failure 21 := by
  constructor
  · decide
  · decide

/-- C4 (amended): with the skip-sync flag off and a valid node client, the
sync gate succeeds as soon as a polled height reaches the target
`get_block_count() + 1` (in particular on the 20th poll, attempt index 19),
and when the indexer never reaches the target it fails fatally after exactly
21 polls (the initial attempt plus 20 retries). -/
theorem claim_C4 (env : Env) (hbc : bitcoin_client env = .ok ())
    (hns : env.noSync = false) :
    (∀ j, j ≤ 20 → env.blockCount + 1 ≤ env.poll j →
      (∀ k, k < j → env.poll k < env.blockCount + 1) →
      syncLoop env.poll (env.blockCount + 1) = .success (j + 1) ∧
        ord_client env = .ok ()) ∧
    ((∀ j, j ≤ 20 → env.poll j < env.blockCount + 1) →
      syncLoop env.poll (env.blockCount + 1) = .failure 21 ∧
        ord_client env = .error .syncPanic) := by
  constructor
  · intro j hj hreach hbefore
    have hs := syncLoop_reaches hj hreach hbefore
    refine ⟨hs, ?_⟩
    simp only [ord_client, hbc, hns, hs]
    rfl
  · intro hnever
    have hf := syncLoop_exhausted hnever
    refine ⟨hf, ?_⟩
    simp only [ord_client, hbc, hns, hf]
    rfl

/-- An environment whose indexer reports height 4 for the first 19 polls and
5 (the target, block count 4 plus 1) from the 20th poll on. -/
def envSyncA : Env :=
  { version := 240000, walletName := "ord",
    descriptors := ["tr(keyA)", "tr(keyB)"], blockCount := 4,
    poll := fun i => if i < 19 then 4 else 5, noSync := false,
    listUnspent := [], locked := [], rawTx := fun _ => none,
    output := fun _ => { indexed := true, sat_ranges := none },
    satIndex := true }

/-- `envSyncA` with an indexer stuck below the target forever. -/
def envSyncB : Env :=
  { envSyncA with poll := fun _ => 4 }

/-- C4 witness: the mock indexer reaching the target on the 20th poll makes
the gate succeed (after 20 polls), and the stuck indexer makes it panic
after 21 polls. -/
theorem claim_C4_witness :
    (syncLoop envSyncA.poll (envSyncA.blockCount + 1) = .success 20 ∧
      ord_client envSyncA = .ok ()) ∧
    (syncLoop envSyncB.poll (envSyncB.blockCount + 1) = .failure 21 ∧
      ord_client envSyncB = .error .syncPanic) := by
  constructor
  · exact (claim_C4 envSyncA (by decide) rfl).1 19 (by decide) (by decide)
      (fun k hk => by simp only [envSyncA, if_pos hk]; decide)
  · exact (claim_C4 envSyncB (by decide) rfl).2
      (fun j hj => by simp only [envSyncB, envSyncA]; decide)

/-- C9: for every seed and network, after a passing version guard the
initializer derives the hardened path `m/86'/c'/0'` with coin type `c = 0`
on mainnet and `c = 1` otherwise, and imports exactly two taproot single-key
descriptors: external first at non-hardened child index 0 with
`internal = false`, then internal at index 1 with `internal = true`, each
with an unhardened wildcard, the origin set to the master fingerprint plus
the hardened path, `active = true` and timestamp `now`. -/
theorem claim_C9 (env : Env) (network : Network) (seed : List Nat)
    (hv : check_version env.version = .ok ()) :
    initDerivationPath network =
      [ChildNumber.hardened 86,
       ChildNumber.hardened (if network = Network.bitcoin then 0 else 1),
       ChildNumber.hardened 0] ∧
    initWallet env network seed = .ok
      [{ descriptor := DescriptorM.tr
           { origin := some ((XKey.newMaster seed).fingerprint,
               initDerivationPath network)
             xkey := (XKey.newMaster seed).derivePriv (initDerivationPath network)
             derivation_path := [ChildNumber.normal 0]
             wildcard := Wildcard.unhardened }
         timestamp := TimestampM.now
         active := some true
         range := none
         next_index := none
         internal := some false
         label := none },
       { descriptor := DescriptorM.tr
           { origin := some ((XKey.newMaster seed).fingerprint,
               initDerivationPath network)
             xkey := (XKey.newMaster seed).derivePriv (initDerivationPath network)
             derivation_path := [ChildNumber.normal 1]
             wildcard := Wildcard.unhardened }
         timestamp := TimestampM.now
         active := some true
         range := none
         next_index := none
         internal := some true
         label := none }] := by
  constructor
  · cases network <;> simp [initDerivationPath]
  · simp only [initWallet, hv]
    rfl

/-- C9 witness: concrete run on mainnet with a fixed seed. -/
theorem claim_C9_witness :
    initDerivationPath Network.bitcoin =
      [ChildNumber.hardened 86, ChildNumber.hardened 0,
       ChildNumber.hardened 0] ∧
    initWallet (envShape ["tr(keyA)", "tr(keyB)"]) Network.bitcoin [9] = .ok
      [{ descriptor := DescriptorM.tr
           { origin := some ((XKey.newMaster [9]).fingerprint,
               initDerivationPath Network.bitcoin)
             xkey := (XKey.newMaster [9]).derivePriv
               (initDerivationPath Network.bitcoin)
             derivation_path := [ChildNumber.normal 0]
             wildcard := Wildcard.unhardened }
         timestamp := TimestampM.now
         active := some true
         range := none
         next_index := none
         internal := some false
         label := none },
       { descriptor := DescriptorM.tr
           { origin := some ((XKey.newMaster [9]).fingerprint,
               initDerivationPath Network.bitcoin)
             xkey := (XKey.newMaster [9]).derivePriv
               (initDerivationPath Network.bitcoin)
             derivation_path := [ChildNumber.normal 1]
             wildcard := Wildcard.unhardened }
         timestamp := TimestampM.now
         active := some true
         range := none
         next_index := none
         internal := some true
         label := none }] := by
  have h := claim_C9 (envShape ["tr(keyA)", "tr(keyB)"]) Network.bitcoin [9]
    (by decide)
  obtain ⟨h1, h2⟩ := h
  refine ⟨?_, h2⟩
  rw [h1]
  decide

/-- C1: every UTXO set returned by `get_unspent_outputs` has all of its key
outpoints confirmed `indexed` by the indexer; and when the set under
construction holds any outpoint the indexer reports un-indexed, the
operation fails with a `notIndexed` error naming an un-indexed outpoint of
that set (the first in iteration order) and returns no UTXO set. -/
theorem claim_C1 (env : Env) :
    (∀ u, get_unspent_outputs env = .ok u →
      ∀ p ∈ u, (env.output p.1).indexed = true) ∧
    (∀ u, buildUtxos env = .ok u → ord_client env = .ok () →
      (∃ p ∈ u, (env.output p.1).indexed = false) →
      ∃ o, o ∈ mapKeys u ∧ (env.output o).indexed = false ∧
        get_unspent_outputs env = .error (.notIndexed o)) := by
  constructor
  · intro u h p hp
    exact checkIndexed_ok_indexed (get_unspent_outputs_ok_facts h).2 p hp
  · intro u hb hoc hbad
    obtain ⟨o, ho, hidx, herr⟩ := checkIndexed_err_of_bad hoc hbad
    refine ⟨o, ho, hidx, ?_⟩
    rw [get_unspent_outputs_eq]
    simp only [hb, herr]

/-- An environment whose single wallet utxo is indexed. -/
def envRecA : Env :=
  { version := 240000, walletName := "ord",
    descriptors := ["tr(keyA)", "tr(keyB)"], blockCount := 0,
    poll := fun _ => 1, noSync := true,
    listUnspent := [({ txid := 1, vout := 0 }, 5)], locked := [],
    rawTx := fun _ => none,
    output := fun _ => { indexed := true, sat_ranges := none },
    satIndex := true }

/-- `envRecA` with the indexer not knowing the output. -/
def envRecB : Env :=
  { envRecA with output := fun _ => { indexed := false, sat_ranges := none } }

/-- C1 witness: with the indexed output the reconciler's result has all keys
indexed; with the un-indexed output it fails naming it. -/
theorem claim_C1_witness :
    (∀ p ∈ [({ txid := 1, vout := 0 }, 5)],
      (envRecA.output (Prod.fst p)).indexed = true) ∧
    (∃ o, o ∈ mapKeys [({ txid := 1, vout := 0 }, 5)] ∧
      (envRecB.output o).indexed = false ∧
      get_unspent_outputs envRecB = .error (.notIndexed o)) := by
  constructor
  · exact (claim_C1 envRecA).1 [({ txid := 1, vout := 0 }, 5)] (by decide)
  · exact (claim_C1 envRecB).2 [({ txid := 1, vout := 0 }, 5)] (by decide)
      (by decide) ⟨({ txid := 1, vout := 0 }, 5), by decide, by decide⟩

/-- C3: the key set of a successfully reconciled UTXO map is exactly the
union of the node's spendable outpoints and its locked outpoints, and every
locked outpoint maps to the value read from its raw transaction at its
output index. -/
theorem claim_C3 (env : Env) (u : List (OutPoint × Nat))
    (h : get_unspent_outputs env = .ok u) :
    (∀ k, k ∈ mapKeys u ↔
      k ∈ env.listUnspent.map Prod.fst ∨ k ∈ env.locked) ∧
    (∀ k, k ∈ env.locked → mapLookup k u = rawAmount env k) := by
  obtain ⟨hb, -⟩ := get_unspent_outputs_ok_facts h
  obtain ⟨-, hkeys, hlock⟩ := buildUtxos_ok_facts hb
  exact ⟨hkeys, hlock⟩

/-- An environment with one spendable utxo and one distinct locked utxo. -/
def envRecC : Env :=
  { envRecA with
    listUnspent := [({ txid := 1, vout := 0 }, 5)],
    locked := [{ txid := 3, vout := 1 }],
    rawTx := fun t => if t = 3 then some [7, 8] else none }

/-- C3 witness: keys are the union, and the locked outpoint carries the raw
transaction's value at index 1. -/
theorem claim_C3_witness :
    (∀ k, k ∈ mapKeys [({ txid := 1, vout := 0 }, 5),
        ({ txid := 3, vout := 1 }, 8)] ↔
      k ∈ envRecC.listUnspent.map Prod.fst ∨ k ∈ envRecC.locked) ∧
    (∀ k, k ∈ envRecC.locked →
      mapLookup k [({ txid := 1, vout := 0 }, 5),
        ({ txid := 3, vout := 1 }, 8)] = rawAmount envRecC k) :=
  claim_C3 envRecC _ (by decide)

/-- C10: an outpoint listed both as spendable and as locked appears in the
reconciled map exactly once, and with the amount read from its raw
transaction (the locked pass runs second and overwrites the listing's
amount). -/
theorem claim_C10 (env : Env) (u : List (OutPoint × Nat)) (o : OutPoint)
    (hspend : o ∈ env.listUnspent.map Prod.fst)
    (hlock : o ∈ env.locked)
    (h : get_unspent_outputs env = .ok u) :
    countKey o u = 1 ∧ mapLookup o u = rawAmount env o := by
  obtain ⟨hb, -⟩ := get_unspent_outputs_ok_facts h
  obtain ⟨hsort, hkeys, hlookup⟩ := buildUtxos_ok_facts hb
  have hmem : o ∈ mapKeys u := (hkeys o).2 (Or.inr hlock)
  exact ⟨countKey_eq_one_of_mem (nodup_keys_of_sortedMap hsort) hmem,
    hlookup o hlock⟩

/-- An environment where the same outpoint is spendable (listed with amount
99) and locked (raw transaction value 7). -/
def envRecD : Env :=
  { envRecA with
    listUnspent := [({ txid := 3, vout := 0 }, 99)],
    locked := [{ txid := 3, vout := 0 }],
    rawTx := fun t => if t = 3 then some [7] else none }

/-- C10 witness: the doubly-listed outpoint appears once, with the raw
transaction's amount 7 rather than the listing's 99. -/
theorem claim_C10_witness :
    countKey { txid := 3, vout := 0 } [({ txid := 3, vout := 0 }, 7)] = 1 ∧
    mapLookup { txid := 3, vout := 0 } [({ txid := 3, vout := 0 }, 7)] =
      rawAmount envRecD { txid := 3, vout := 0 } :=
  claim_C10 envRecD _ _ (by decide) (by decide) (by decide)

theorem findSatLoop_skip_all {env : Env} {sat : Nat}
    {u1 rest : List (OutPoint × Nat)}
    (hoc : ord_client env = .ok ())
    (hidx : ∀ p ∈ u1, (env.output p.1).indexed = true)
    (hnc : ∀ p ∈ u1, ∀ rs, (env.output p.1).sat_ranges = some rs →
      ∀ r ∈ rs, ¬ rangeCovers r sat) :
    findSatLoop env sat (u1 ++ rest) = findSatLoop env sat rest := by
  induction u1 with
  | nil => rfl
  | cons q u1' ih =>
    obtain ⟨o, v⟩ := q
    rw [List.cons_append,
      findSatLoop_skip_head hoc (hidx (o, v) (List.mem_cons_self _ _))
        (hnc (o, v) (List.mem_cons_self _ _))]
    exact ih (fun p hp => hidx p (List.mem_cons_of_mem _ hp))
      (fun p hp => hnc p (List.mem_cons_of_mem _ hp))

/-- C2: when the sat index is enabled and the indexer reachable, for a UTXO
set split as `u1 ++ (o, v) :: u2` where every output of `u1` is indexed and
covers the target in none of its ranges, and output `o` is indexed with
range list `pre ++ (s, e) :: post` where no range of `pre` covers the target
and `s ≤ sat < e`, the resolver returns the satpoint at outpoint `o` with
offset the sum of the lengths of the preceding ranges plus `sat - s`. -/
theorem claim_C2 (env : Env) (sat : Nat) (u1 u2 : List (OutPoint × Nat))
    (o : OutPoint) (v : Nat) (rs pre post : List (Nat × Nat)) (s e : Nat)
    (hoc : ord_client env = .ok ()) (hsi : env.satIndex = true)
    (hidx1 : ∀ p ∈ u1, (env.output p.1).indexed = true)
    (hnc1 : ∀ p ∈ u1, ∀ rs', (env.output p.1).sat_ranges = some rs' →
      ∀ r ∈ rs', ¬ rangeCovers r sat)
    (hidx : (env.output o).indexed = true)
    (hsr : (env.output o).sat_ranges = some rs)
    (hsplit : rs = pre ++ (s, e) :: post)
    (hpre : ∀ r ∈ pre, ¬ rangeCovers r sat)
    (hs : s ≤ sat) (he : sat < e) :
    find_sat_in_outputs env sat (u1 ++ (o, v) :: u2) =
      .ok ⟨o, rangeLenSum pre + (sat - s)⟩ := by
  have hoff : rangeLenSum pre + sat - s = rangeLenSum pre + (sat - s) := by
    omega
  simp only [find_sat_in_outputs, check_sat_index, hoc, hsi]
  rw [if_neg (by simp), findSatLoop_skip_all hoc hidx1 hnc1,
    findSatLoop_found_head hoc hidx hsr hsplit hpre hs he, hoff]

/-- An environment whose only output carries the sat ranges
`[(100,150), (150,200)]`. -/
def envSat : Env :=
  { version := 240000, walletName := "ord",
    descriptors := ["tr(keyA)", "tr(keyB)"], blockCount := 0,
    poll := fun _ => 1, noSync := true,
    listUnspent := [({ txid := 1, vout := 0 }, 100)], locked := [],
    rawTx := fun _ => none,
    output := fun _ =>
      { indexed := true, sat_ranges := some [(100, 150), (150, 200)] },
    satIndex := true }

/-- C2 witness: the spec's round trip — ranges `[(100,150),(150,200)]` and
target sat 175 resolve to offset 75. -/
theorem claim_C2_witness :
    find_sat_in_outputs envSat 175 [({ txid := 1, vout := 0 }, 100)] =
      .ok ⟨{ txid := 1, vout := 0 }, 75⟩ := by
  have h := claim_C2 envSat 175 [] [] { txid := 1, vout := 0 } 100
    [(100, 150), (150, 200)] [(100, 150)] [] 150 200
    (by decide) (by decide)
    (fun p hp => absurd hp (List.not_mem_nil p))
    (fun p hp => absurd hp (List.not_mem_nil p))
    (by decide) (by decide) (by decide) (by decide) (by decide) (by decide)
  simpa using h

/-- C5: when the sat index is enabled and the indexer reachable, if every
output of the UTXO set is indexed and none of the ranges the indexer reports
for it covers the target sat — outputs with no range list being skipped, not
errors — the resolver fails with a not-found error naming the target sat. -/
theorem claim_C5 (env : Env) (sat : Nat) (u : List (OutPoint × Nat))
    (hoc : ord_client env = .ok ()) (hsi : env.satIndex = true)
    (hidx : ∀ p ∈ u, (env.output p.1).indexed = true)
    (hnc : ∀ p ∈ u, ∀ rs, (env.output p.1).sat_ranges = some rs →
      ∀ r ∈ rs, ¬ rangeCovers r sat) :
    find_sat_in_outputs env sat u = .error (.satNotFound sat) := by
  simp only [find_sat_in_outputs, check_sat_index, hoc, hsi]
  rw [if_neg (by simp)]
  exact findSatLoop_not_found hoc hidx hnc

/-- `envSat` with a second output the index regards as spent (no ranges):
that output is skipped, not an error, when resolving a sat. -/
def envSatB : Env :=
  { envSat with
    output := fun o =>
      if o.txid = 1 then
        { indexed := true, sat_ranges := some [(100, 150), (150, 200)] }
      else
        { indexed := true, sat_ranges := none } }

/-- C5 witness: sat 999 is in no range of the two-output set (one output
spent per index and skipped), so resolution fails naming sat 999. -/
theorem claim_C5_witness :
    find_sat_in_outputs envSatB 999
      [({ txid := 1, vout := 0 }, 100), ({ txid := 2, vout := 0 }, 50)] =
      .error (.satNotFound 999) :=
  claim_C5 envSatB 999
    [({ txid := 1, vout := 0 }, 100), ({ txid := 2, vout := 0 }, 50)]
    (by decide) (by decide) (by decide) (by decide)

/-- C6: with the sat index enabled and the indexer reachable, whenever any
output of the reconciled UTXO set reports no sat-range list (spent per the
index), `get_output_sat_ranges` fails with a `spentPerIndex` error naming an
offending output of the set; and on success its result covers exactly the
keys of the reconciled set — no output is silently omitted. -/
theorem claim_C6 (env : Env) (u : List (OutPoint × Nat))
    (hoc : ord_client env = .ok ()) (hsi : env.satIndex = true)
    (h : get_unspent_outputs env = .ok u) :
    ((∃ p ∈ u, (env.output p.1).sat_ranges = none) →
      ∃ o, o ∈ mapKeys u ∧ (env.output o).sat_ranges = none ∧
        get_output_sat_ranges env = .error (.spentPerIndex o)) ∧
    (∀ l, get_output_sat_ranges env = .ok l →
      l.map Prod.fst = mapKeys u) := by
  have hidx : ∀ p ∈ u, (env.output p.1).indexed = true :=
    checkIndexed_ok_indexed (get_unspent_outputs_ok_facts h).2
  constructor
  · intro hbad
    obtain ⟨o, ho, hsr, herr⟩ := satRangesLoop_err_of_spent hoc hidx hbad
    refine ⟨o, ho, hsr, ?_⟩
    simp only [get_output_sat_ranges, check_sat_index, hoc, hsi]
    rw [if_neg (by simp)]
    simp only [h, herr]
  · intro l hl
    simp only [get_output_sat_ranges, check_sat_index, hoc, hsi] at hl
    rw [if_neg (by simp)] at hl
    simp only [h] at hl
    exact satRangesLoop_ok_keys hl

/-- `envRecA` with the indexer reporting the wallet's sole output spent
(indexed, but no sat ranges). -/
def envRecE : Env :=
  { envRecA with
    output := fun _ => { indexed := true, sat_ranges := none } }

/-- `envRecA` with the indexer reporting sat ranges for every output. -/
def envRecF : Env :=
  { envRecA with
    output := fun _ => { indexed := true, sat_ranges := some [(0, 5)] } }

/-- C6 witness: the spent-per-index output makes the ranged read fail naming
it, and with ranges present the read returns exactly the set's keys. -/
theorem claim_C6_witness :
    (∃ o, o ∈ mapKeys [({ txid := 1, vout := 0 }, 5)] ∧
      (envRecE.output o).sat_ranges = none ∧
      get_output_sat_ranges envRecE = .error (.spentPerIndex o)) ∧
    List.map Prod.fst [({ txid := 1, vout := 0 }, [(0, 5)])] =
      mapKeys [({ txid := 1, vout := 0 }, 5)] := by
  constructor
  · exact (claim_C6 envRecE [({ txid := 1, vout := 0 }, 5)] (by decide)
      (by decide) (by decide)).1
      ⟨({ txid := 1, vout := 0 }, 5), by decide, by decide⟩
  · exact (claim_C6 envRecF [({ txid := 1, vout := 0 }, 5)] (by decide)
      (by decide) (by decide)).2 [({ txid := 1, vout := 0 }, [(0, 5)])]
      (by decide)
